import Mathlib

/-!
Verification of the variable-representation layer of the Platypus
evolutionary-algorithm library (`platypus/types.py`): the Type variants
Real, Real_Normal, Real_T, Binary, Integer (Gray-coded) and Subset, and
the bit/Gray codec they use.

The bit/Gray codec lives in `platypus/tools.py`, which is not part of the
sources under verification; those four functions are modelled from the
specification (§4.1) and are marked as such in their doc comments.
Everything else is translated directly from `platypus/types.py`.

Randomness is made explicit: each `rand` takes the drawn sample (or the
shuffled index list) as an argument, and theorems quantify over it.
Python floats are modelled as rationals; fallible operations return
`Option`.
-/

namespace Platypus

/-- Modelled from the spec: core of `int_to_bits` on naturals (the codec in
`platypus/tools.py` is not under the verified sources).  Produces the
`width`-length big-endian boolean sequence representing `k`. -/
def int2binNat : Nat → Nat → List Bool
  | _, 0 => []
  | k, w + 1 => int2binNat (k / 2) w ++ [k % 2 == 1]

/-- Modelled from the spec: `bits_to_int`, total over any bit sequence,
returns the non-negative integer the big-endian sequence encodes. -/
def bin2int (b : List Bool) : Nat :=
  b.foldl (fun i x => 2 * i + (if x then 1 else 0)) 0

/-- Helper carrying the preceding input bit through `bin2gray`. -/
def bin2grayAux (prev : Bool) : List Bool → List Bool
  | [] => []
  | x :: xs => Bool.xor prev x :: bin2grayAux x xs

/-- Modelled from the spec: `binary_to_gray` — output bit 0 equals input
bit 0; each subsequent output bit is the exclusive-or of the corresponding
input bit and the preceding input bit. -/
def bin2gray (b : List Bool) : List Bool := bin2grayAux false b

/-- Helper carrying the accumulated prefix exclusive-or through `gray2bin`. -/
def gray2binAux (acc : Bool) : List Bool → List Bool
  | [] => []
  | x :: xs => Bool.xor acc x :: gray2binAux (Bool.xor acc x) xs

/-- Modelled from the spec: `gray_to_bits` — recovers the original bit
sequence by a prefix-exclusive-or accumulation over the Gray-coded
sequence, left to right. -/
def gray2bin (g : List Bool) : List Bool := gray2binAux false g

/-- Modelled from the spec: fallible wrapper for `int_to_bits`, whose
precondition is `0 ≤ value < 2 ^ width`; outside that range the behaviour
is undefined, modelled as `none`. -/
def int2bin (value : Int) (width : Nat) : Option (List Bool) :=
  if 0 ≤ value ∧ value < (2 : Int) ^ width then some (int2binNat value.toNat width)
  else none

/-- Fuel-driven floor of the base-2 logarithm (fuel `≥ n` suffices). -/
def log2fuel : Nat → Nat → Nat
  | 0, _ => 0
  | fuel + 1, n => if n < 2 then 0 else log2fuel fuel (n / 2) + 1

/-- Floor of the base-2 logarithm, the `int(math.log(d, 2))` of the source
for positive `d`. -/
def floorLog2 (n : Nat) : Nat := log2fuel n n

/-- The `Integer` type descriptor: a bounded integer domain Gray-coded
into fixed-width bit strings. -/
structure Integer where
  min_value : Int
  max_value : Int

/-- Bit width from `Integer.__init__`: `int(math.log(max - min, 2)) + 1`. -/
def Integer.nbits (T : Integer) : Nat :=
  floorLog2 (T.max_value - T.min_value).toNat + 1

/-- `Integer.encode`: `bin2gray(int2bin(value - min_value, nbits))`. -/
def Integer.encode (T : Integer) (value : Int) : Option (List Bool) :=
  (int2bin (value - T.min_value) T.nbits).map bin2gray

/-- `Integer.decode`: Gray-decode to an offset, subtract `max - min` when
the offset exceeds it, and add `min_value`. -/
def Integer.decode (T : Integer) (bits : List Bool) : Int :=
  T.min_value +
    (if (bin2int (gray2bin bits) : Int) > T.max_value - T.min_value
      then (bin2int (gray2bin bits) : Int) - (T.max_value - T.min_value)
      else (bin2int (gray2bin bits) : Int))

/-- Number of bit positions at which two equal-length bit sequences differ. -/
def hammingDist (a b : List Bool) : Nat :=
  (List.zipWith Bool.xor a b).count true

/-- The `Real` type descriptor; Python floats are modelled as rationals. -/
structure Real where
  min_value : ℚ
  max_value : ℚ

/-- `Real.__init__`: stores the two bounds, with no validation. -/
def Real.make (min_value max_value : ℚ) : Option Real :=
  some ⟨min_value, max_value⟩

/-- The `Real_Normal` type descriptor.  `clamp` is the optional 2-element
flag pair; its Python default is `None`, modelled as `none`. -/
structure Real_Normal where
  min_value : ℚ
  max_value : ℚ
  default_value : ℚ
  spread : ℚ
  clamp : Option (Bool × Bool)

/-- `Real_Normal.__init__`: stores the parameters, with no validation. -/
def Real_Normal.make (min_value max_value default_value spread : ℚ)
    (clamp : Option (Bool × Bool)) : Option Real_Normal :=
  some ⟨min_value, max_value, default_value, spread, clamp⟩

/-- `Real_Normal.rand`, with the Normal(default_value, spread) sample made
an explicit argument.  When `spread > 0` the code subscripts `clamp[0]`,
which raises `TypeError` on the default `clamp = None` (modelled as
`none`); with noise active it clamps the draw to `min_value` first and
then to `max_value`. -/
def Real_Normal.rand (T : Real_Normal) (draw : ℚ) : Option ℚ :=
  if 0 < T.spread then
    match T.clamp with
    | none => none
    | some c =>
        if c.1 = false then some (min (max draw T.min_value) T.max_value)
        else some T.default_value
  else some T.default_value

/-- The `Real_T` type descriptor. -/
structure Real_T where
  min_value : ℚ
  max_value : ℚ
  default_value : ℚ

/-- `Real_T.__init__`: stores the parameters, with no validation. -/
def Real_T.make (min_value max_value default_value : ℚ) : Option Real_T :=
  some ⟨min_value, max_value, default_value⟩

/-- `Real_T.rand`, with the Student's-t sample made an explicit argument:
adds `default_value`, clamps to `min_value` first and then to
`max_value`. -/
def Real_T.rand (T : Real_T) (draw : ℚ) : ℚ :=
  min (max (draw + T.default_value) T.min_value) T.max_value

/-- The `Binary` type descriptor. -/
structure Binary where
  nbits : Int

/-- `Binary.__init__`: stores `nbits`, with no validation. -/
def Binary.make (nbits : Int) : Option Binary :=
  some ⟨nbits⟩

/-- The `Subset` type descriptor. -/
structure Subset (α : Type) where
  elements : List α
  size : Int

/-- `Subset.__init__`: stores an owned copy of `elements` and `size`, with
no validation. -/
def Subset.make {α : Type} (elements : List α) (size : Int) : Option (Subset α) :=
  some ⟨elements, size⟩

/-- Python prefix slice `l[:k]`, including its negative-index semantics. -/
def pySliceTo {α : Type} (l : List α) (k : Int) : List α :=
  if 0 ≤ k then l.take k.toNat else l.take (l.length - (-k).toNat)

/-- Index selection of `Subset.rand`: `list(range(1, len(elements)))` is
shuffled (the shuffle outcome is the explicit `shuffled` argument) and the
first `size` entries are kept. -/
def Subset.randIndices {α : Type} (S : Subset α) (shuffled : List Nat) : List Nat :=
  pySliceTo shuffled S.size

/-- `Subset.rand`: elements of `elements` at the selected indices. -/
def Subset.rand {α : Type} [Inhabited α] (S : Subset α) (shuffled : List Nat) : List α :=
  (S.randIndices shuffled).map (fun i => S.elements.getD i default)

theorem int2binNat_length (w : Nat) : ∀ k, (int2binNat k w).length = w := by
  induction w with
  | zero => intro k; rfl
  | succ w ih => intro k; simp [int2binNat, ih]

theorem bin2grayAux_length (b : List Bool) : ∀ p, (bin2grayAux p b).length = b.length := by
  induction b with
  | nil => intro p; rfl
  | cons x xs ih => intro p; simp [bin2grayAux, ih]

theorem gray2binAux_length (b : List Bool) : ∀ p, (gray2binAux p b).length = b.length := by
  induction b with
  | nil => intro p; rfl
  | cons x xs ih => intro p; simp [gray2binAux, ih]

theorem gray2binAux_bin2grayAux (b : List Bool) :
    ∀ p, gray2binAux p (bin2grayAux p b) = b := by
  induction b with
  | nil => intro p; rfl
  | cons x xs ih =>
      intro p
      have hxx : Bool.xor p (Bool.xor p x) = x := by cases p <;> cases x <;> rfl
      simp only [bin2grayAux, gray2binAux, hxx]
      exact congrArg (x :: ·) (ih x)

theorem gray2bin_bin2gray (b : List Bool) : gray2bin (bin2gray b) = b :=
  gray2binAux_bin2grayAux b false

theorem bin2int_append_bit (l : List Bool) (x : Bool) :
    bin2int (l ++ [x]) = 2 * bin2int l + (if x then 1 else 0) := by
  simp [bin2int, List.foldl_append]

theorem bin2int_int2binNat (w : Nat) : ∀ k, k < 2 ^ w → bin2int (int2binNat k w) = k := by
  induction w with
  | zero =>
      intro k hk
      have : k = 0 := by omega
      subst this; rfl
  | succ w ih =>
      intro k hk
      have hdiv : k / 2 < 2 ^ w := by
        have : (2 : Nat) ^ (w + 1) = 2 ^ w * 2 := pow_succ 2 w
        omega
      have hmod := Nat.div_add_mod k 2
      rcases Nat.mod_two_eq_zero_or_one k with h2 | h2 <;>
        simp [int2binNat, bin2int_append_bit, ih _ hdiv, h2] <;> omega

theorem bin2int_lt (b : List Bool) : bin2int b < 2 ^ b.length := by
  induction b using List.reverseRecOn with
  | nil => simp [bin2int]
  | append_singleton l x ih =>
      rw [bin2int_append_bit, List.length_append]
      have h2 : (2 : Nat) ^ (l.length + 1) = 2 ^ l.length * 2 := pow_succ 2 l.length
      simp only [List.length_singleton, h2]
      cases x <;> simp <;> omega

theorem log2fuel_spec : ∀ fuel n, n ≤ fuel → 1 ≤ n →
    2 ^ log2fuel fuel n ≤ n ∧ n < 2 ^ (log2fuel fuel n + 1) := by
  intro fuel
  induction fuel with
  | zero => intro n h1 h2; omega
  | succ fuel ih =>
      intro n hle h1
      by_cases hs : n < 2
      · have hn : n = 1 := by omega
        simp [log2fuel, hs, hn]
      · have hdle : n / 2 ≤ fuel := by omega
        have hd1 : 1 ≤ n / 2 := by omega
        obtain ⟨ihl, ihr⟩ := ih (n / 2) hdle hd1
        simp only [log2fuel, if_neg hs]
        constructor
        · have : (2 : Nat) ^ (log2fuel fuel (n / 2) + 1) =
              2 ^ log2fuel fuel (n / 2) * 2 := pow_succ 2 _
          omega
        · have h3 : (2 : Nat) ^ (log2fuel fuel (n / 2) + 1 + 1) =
              2 ^ (log2fuel fuel (n / 2) + 1) * 2 := pow_succ 2 _
          omega

theorem floorLog2_spec (n : Nat) (h : 1 ≤ n) :
    2 ^ floorLog2 n ≤ n ∧ n < 2 ^ (floorLog2 n + 1) :=
  log2fuel_spec n n le_rfl h

/-- Range bounds for the derived bit width: `max - min < 2 ^ nbits ≤ 2 (max - min)`. -/
theorem Integer.nbits_bounds (T : Integer) (h : T.min_value < T.max_value) :
    (T.max_value - T.min_value).toNat < 2 ^ T.nbits ∧
      2 ^ T.nbits ≤ 2 * (T.max_value - T.min_value).toNat := by
  have hd : 1 ≤ (T.max_value - T.min_value).toNat := by omega
  obtain ⟨h1, h2⟩ := floorLog2_spec _ hd
  have h3 : (2 : Nat) ^ T.nbits = 2 ^ floorLog2 (T.max_value - T.min_value).toNat * 2 :=
    pow_succ 2 _
  constructor
  · exact h2
  · omega

theorem zipWith_xor_self (l : List Bool) :
    List.zipWith Bool.xor l l = List.replicate l.length false := by
  induction l with
  | nil => rfl
  | cons x xs ih => simp [ih, List.replicate_succ]

theorem bin2grayAux_zipWith_xor (a : List Bool) :
    ∀ (b : List Bool) (p q : Bool), a.length = b.length →
      List.zipWith Bool.xor (bin2grayAux p a) (bin2grayAux q b) =
        bin2grayAux (Bool.xor p q) (List.zipWith Bool.xor a b) := by
  induction a with
  | nil =>
      intro b p q hlen
      have : b = [] := by
        cases b with
        | nil => rfl
        | cons y ys => simp at hlen
      subst this; rfl
  | cons x xs ih =>
      intro b p q hlen
      cases b with
      | nil => simp at hlen
      | cons y ys =>
          have hlen' : xs.length = ys.length := by simpa using hlen
          have hx4 : Bool.xor (Bool.xor p x) (Bool.xor q y) =
              Bool.xor (Bool.xor p q) (Bool.xor x y) := by
            cases p <;> cases q <;> cases x <;> cases y <;> rfl
          simp only [bin2grayAux, List.zipWith_cons_cons, hx4, ih ys x y hlen']

/-- The bitwise exclusive-or of the fixed-width representations of two
consecutive integers is a (possibly empty) run of `false` followed by a
non-empty run of `true`. -/
theorem int2binNat_succ_xor (w : Nat) : ∀ k, k + 1 < 2 ^ w →
    ∃ s t, s + t + 1 = w ∧
      List.zipWith Bool.xor (int2binNat k w) (int2binNat (k + 1) w) =
        List.replicate s false ++ true :: List.replicate t true := by
  induction w with
  | zero => intro k hk; omega
  | succ w ih =>
      intro k hk
      have hpow : (2 : Nat) ^ (w + 1) = 2 ^ w * 2 := pow_succ 2 w
      have hlen : (int2binNat (k / 2) w).length = (int2binNat ((k + 1) / 2) w).length := by
        rw [int2binNat_length, int2binNat_length]
      rcases Nat.mod_two_eq_zero_or_one k with h2 | h2
      · -- k even: representations agree except in the last bit
        have hdiv : (k + 1) / 2 = k / 2 := by omega
        have hm : (k + 1) % 2 = 1 := by omega
        rw [hdiv] at hlen
        refine ⟨w, 0, by omega, ?_⟩
        simp only [int2binNat, hdiv, hm, h2]
        rw [List.zipWith_append _ _ _ _ _ hlen, zipWith_xor_self, int2binNat_length]
        simp
      · -- k odd: carry propagates into the upper bits
        have hdiv : (k + 1) / 2 = k / 2 + 1 := by omega
        have hm : (k + 1) % 2 = 0 := by omega
        have hk' : k / 2 + 1 < 2 ^ w := by omega
        rw [hdiv] at hlen
        obtain ⟨s, t, hst, heq⟩ := ih (k / 2) hk'
        refine ⟨s, t + 1, by omega, ?_⟩
        simp only [int2binNat, hdiv, hm, h2]
        rw [List.zipWith_append _ _ _ _ _ hlen, heq]
        simp [List.replicate_succ' t true]

theorem bin2grayAux_false_replicate (s : Nat) (rest : List Bool) :
    bin2grayAux false (List.replicate s false ++ rest) =
      List.replicate s false ++ bin2grayAux false rest := by
  induction s with
  | zero => rfl
  | succ s ih => simp [List.replicate_succ, bin2grayAux, ih]

theorem bin2grayAux_true_replicate (t : Nat) :
    bin2grayAux true (List.replicate t true) = List.replicate t false := by
  induction t with
  | zero => rfl
  | succ t ih => simp [List.replicate_succ, bin2grayAux, ih]

theorem count_true_pattern (s t : Nat) :
    (List.replicate s false ++ true :: List.replicate t false).count true = 1 := by
  simp [List.count_append, List.count_replicate, List.count_cons]

/-- C1: the Gray-code round-trip law — for every Integer type with
`min_value < max_value` and every integer `v` with
`min_value ≤ v ≤ max_value`, `decode (encode v) = v`. -/
theorem c1_integer_roundtrip (T : Integer) (v : Int)
    (hrange : T.min_value < T.max_value)
    (h1 : T.min_value ≤ v) (h2 : v ≤ T.max_value) :
    (T.encode v).map T.decode = some v := by
  obtain ⟨hb1, hb2⟩ := T.nbits_bounds hrange
  have hcast : ((2 ^ T.nbits : Nat) : Int) = (2 : Int) ^ T.nbits := by push_cast; ring
  have hoff0 : 0 ≤ v - T.min_value := by omega
  have hoffltI : v - T.min_value < (2 : Int) ^ T.nbits := by omega
  have hoffltN : (v - T.min_value).toNat < 2 ^ T.nbits := by omega
  have henc : T.encode v = some (bin2gray (int2binNat (v - T.min_value).toNat T.nbits)) := by
    simp only [Integer.encode, int2bin]
    rw [if_pos (And.intro hoff0 hoffltI)]
    rfl
  have hk : bin2int (gray2bin (bin2gray (int2binNat (v - T.min_value).toNat T.nbits)))
      = (v - T.min_value).toNat := by
    rw [gray2bin_bin2gray, bin2int_int2binNat _ _ hoffltN]
  have hdec : T.decode (bin2gray (int2binNat (v - T.min_value).toNat T.nbits)) = v := by
    simp only [Integer.decode, hk]
    rw [if_neg (by omega)]
    omega
  rw [henc, Option.map_some', hdec]

theorem c1_integer_roundtrip_witness :
    (Integer.encode ⟨0, 4⟩ 3).map (Integer.decode ⟨0, 4⟩) = some 3 :=
  c1_integer_roundtrip ⟨0, 4⟩ 3 (by decide) (by decide) (by decide)

/-- C2 counterexample: for `Integer(0, 4)`, the surplus 3-bit pattern
whose Gray-decoded value is 5 decodes to 1, not to 0 as the claim
states (the wrap rule subtracts `max_value - min_value = 4`, not the
range size 5). -/
theorem c2_counterexample :
    bin2int (gray2bin [true, true, true]) = 5 ∧
      Integer.decode ⟨0, 4⟩ [true, true, true] ≠ 0 := by
  decide

/-- C2 (amended): `Integer(0, 4)` has `nbits = 3`; all five values 0..4
round-trip through encode/decode; and the three unused 3-bit patterns
whose Gray-decoded values are 5, 6 and 7 decode via the wrap rule to 1, 2
and 3 respectively. -/
theorem c2_integer_0_4_concrete :
    Integer.nbits ⟨0, 4⟩ = 3 ∧
    (∀ v ∈ ([0, 1, 2, 3, 4] : List Int),
      (Integer.encode ⟨0, 4⟩ v).map (Integer.decode ⟨0, 4⟩) = some v) ∧
    (bin2int (gray2bin [true, true, true]) = 5 ∧
      Integer.decode ⟨0, 4⟩ [true, true, true] = 1) ∧
    (bin2int (gray2bin [true, false, true]) = 6 ∧
      Integer.decode ⟨0, 4⟩ [true, false, true] = 2) ∧
    (bin2int (gray2bin [true, false, false]) = 7 ∧
      Integer.decode ⟨0, 4⟩ [true, false, false] = 3) := by
  decide

/-- C3: `Integer.decode` is total over all bit sequences of length
`nbits`: the wrap subtraction of `max_value - min_value` happens exactly
when the Gray-decoded offset exceeds `max_value - min_value`, and the
result always lies in `[min_value, max_value]`. -/
theorem c3_decode_total (T : Integer) (bits : List Bool)
    (hrange : T.min_value < T.max_value) (hlen : bits.length = T.nbits) :
    T.min_value ≤ T.decode bits ∧ T.decode bits ≤ T.max_value ∧
      ((bin2int (gray2bin bits) : Int) ≤ T.max_value - T.min_value →
        T.decode bits = T.min_value + bin2int (gray2bin bits)) ∧
      (T.max_value - T.min_value < (bin2int (gray2bin bits) : Int) →
        T.decode bits = T.min_value + bin2int (gray2bin bits) -
          (T.max_value - T.min_value)) := by
  obtain ⟨hb1, hb2⟩ := T.nbits_bounds hrange
  have hk : bin2int (gray2bin bits) < 2 ^ T.nbits := by
    have h := bin2int_lt (gray2bin bits)
    rwa [gray2bin, gray2binAux_length, hlen] at h
  simp only [Integer.decode]
  by_cases hgt : T.max_value - T.min_value < (bin2int (gray2bin bits) : Int)
  · rw [if_pos hgt]
    refine ⟨by omega, by omega, by omega, by omega⟩
  · rw [if_neg hgt]
    refine ⟨by omega, by omega, by omega, by omega⟩

theorem c3_decode_total_witness :
    Integer.min_value ⟨0, 4⟩ ≤ Integer.decode ⟨0, 4⟩ [true, true, true] ∧
      Integer.decode ⟨0, 4⟩ [true, true, true] ≤ Integer.max_value ⟨0, 4⟩ :=
  ⟨(c3_decode_total ⟨0, 4⟩ [true, true, true] (by decide) (by decide)).1,
    (c3_decode_total ⟨0, 4⟩ [true, true, true] (by decide) (by decide)).2.1⟩

/-- C4: Gray-code adjacency — for every Integer type and every `v` with
`min_value ≤ v` and `v + 1 ≤ max_value`, the encodings of `v` and `v + 1`
are defined, have the same length, and differ in exactly one bit
position. -/
theorem c4_gray_adjacency (T : Integer) (v : Int)
    (hrange : T.min_value < T.max_value)
    (h1 : T.min_value ≤ v) (h2 : v + 1 ≤ T.max_value) :
    ∃ b1 b2, T.encode v = some b1 ∧ T.encode (v + 1) = some b2 ∧
      b1.length = b2.length ∧ hammingDist b1 b2 = 1 := by
  obtain ⟨hb1, hb2⟩ := T.nbits_bounds hrange
  have hcast : ((2 ^ T.nbits : Nat) : Int) = (2 : Int) ^ T.nbits := by push_cast; ring
  have hsucc : (v + 1 - T.min_value).toNat = (v - T.min_value).toNat + 1 := by omega
  have hklt : (v - T.min_value).toNat + 1 < 2 ^ T.nbits := by omega
  have hc1 : 0 ≤ v - T.min_value := by omega
  have hc2 : v - T.min_value < (2 : Int) ^ T.nbits := by omega
  have hc3 : 0 ≤ v + 1 - T.min_value := by omega
  have hc4 : v + 1 - T.min_value < (2 : Int) ^ T.nbits := by omega
  have henc1 : T.encode v =
      some (bin2gray (int2binNat (v - T.min_value).toNat T.nbits)) := by
    simp only [Integer.encode, int2bin]
    rw [if_pos (And.intro hc1 hc2)]
    rfl
  have henc2 : T.encode (v + 1) =
      some (bin2gray (int2binNat ((v - T.min_value).toNat + 1) T.nbits)) := by
    simp only [Integer.encode, int2bin]
    rw [if_pos (And.intro hc3 hc4), hsucc]
    rfl
  obtain ⟨s, t, hst, hxor⟩ := int2binNat_succ_xor T.nbits (v - T.min_value).toNat hklt
  have hpat : bin2grayAux false (true :: List.replicate t true) =
      true :: List.replicate t false := by
    simp [bin2grayAux, bin2grayAux_true_replicate]
  have hham : hammingDist (bin2gray (int2binNat (v - T.min_value).toNat T.nbits))
      (bin2gray (int2binNat ((v - T.min_value).toNat + 1) T.nbits)) = 1 := by
    rw [hammingDist, bin2gray, bin2gray,
      bin2grayAux_zipWith_xor _ _ false false
        (by rw [int2binNat_length, int2binNat_length]),
      hxor]
    simp only [Bool.false_xor]
    rw [bin2grayAux_false_replicate, hpat]
    exact count_true_pattern s t
  refine ⟨_, _, henc1, henc2, ?_, hham⟩
  rw [bin2gray, bin2gray, bin2grayAux_length, bin2grayAux_length,
    int2binNat_length, int2binNat_length]

theorem c4_gray_adjacency_witness :
    ∃ b1 b2, Integer.encode ⟨0, 4⟩ 2 = some b1 ∧
      Integer.encode ⟨0, 4⟩ (2 + 1) = some b2 ∧
      b1.length = b2.length ∧ hammingDist b1 b2 = 1 :=
  c4_gray_adjacency ⟨0, 4⟩ 2 (by decide) (by decide) (by decide)

/-- C5 counterexample: for `Integer(0, 4)` the value 5 lies outside
`[min_value, max_value]` — its offset 5 exceeds `max_value - min_value =
4` — yet `encode` produces an encoding instead of failing. -/
theorem c5_counterexample :
    (4 : Int) - 0 < 5 - 0 ∧ Integer.encode ⟨0, 4⟩ 5 = some [true, true, true] := by
  decide

/-- C5 (amended): `Integer.encode` fails exactly when the offset
`value - min_value` is negative or at least `2 ^ nbits`; offsets strictly
between `max_value - min_value` and `2 ^ nbits` are silently Gray-encoded
into the surplus bit patterns rather than rejected. -/
theorem c5_encode_failure_iff (T : Integer) (v : Int) :
    T.encode v = none ↔
      v - T.min_value < 0 ∨ (2 : Int) ^ T.nbits ≤ v - T.min_value := by
  simp only [Integer.encode, int2bin]
  by_cases h : 0 ≤ v - T.min_value ∧ v - T.min_value < (2 : Int) ^ T.nbits
  · rw [if_pos h, Option.map_some']
    constructor
    · intro hc
      exact absurd hc (Option.some_ne_none _)
    · intro hc
      exact absurd hc (by omega)
  · rw [if_neg h, Option.map_none']
    exact ⟨fun _ => by omega, fun _ => rfl⟩

/-- C6 counterexample: for `Real_T(2, 1, 0)` — the erroneous case
`min_value > max_value` — a draw of 5 yields `max_value = 1`, not
`min_value = 2` as the claim states. -/
theorem c6_counterexample :
    (1 : ℚ) < 2 ∧ Real_T.rand ⟨2, 1, 0⟩ 5 = 1 ∧ Real_T.rand ⟨2, 1, 0⟩ 5 ≠ 2 := by
  norm_num [Real_T.rand, min_def, max_def]

/-- C6 (amended): Real_Normal with noise active and Real_T both clamp the
drawn value to `min_value` first and then to `max_value`; because the
`max_value` clamp is applied last, a caller error `min_value > max_value`
makes the result `max_value`, not an error. -/
theorem c6_clamp_order (N : Real_Normal) (T : Real_T) (dN dT : ℚ) (c : Bool × Bool)
    (hcl : N.clamp = some c) (hc : c.1 = false) (hs : 0 < N.spread)
    (hN : N.max_value < N.min_value) (hT : T.max_value < T.min_value) :
    N.rand dN = some N.max_value ∧ T.rand dT = T.max_value := by
  constructor
  · have hmin : min (max dN N.min_value) N.max_value = N.max_value :=
      min_eq_right (le_trans hN.le (le_max_right dN N.min_value))
    simp [Real_Normal.rand, hs, hcl, hc, hmin]
  · exact min_eq_right (le_trans hT.le (le_max_right (dT + T.default_value) T.min_value))

theorem c6_clamp_order_witness :
    Real_Normal.rand ⟨2, 1, 0, 1, some (false, false)⟩ 5 = some 1 ∧
      Real_T.rand ⟨2, 1, 0⟩ 6 = 1 :=
  c6_clamp_order ⟨2, 1, 0, 1, some (false, false)⟩ ⟨2, 1, 0⟩ 5 6 (false, false)
    rfl rfl (by norm_num) (by norm_num) (by norm_num)

/-- C7 counterexample: `Subset([10, 20], 2)` has `size = len(elements)`,
its index pool `range(1, 2)` is just `[1]` (so `[1]` is the only possible
shuffle outcome), and rand returns the single element `[20]` — not
`size = 2` elements. -/
theorem c7_counterexample :
    ([1] : List Nat).Perm (List.range' 1 (([10, 20] : List Nat).length - 1)) ∧
      (0 : Int) ≤ 2 ∧ (2 : Int) ≤ (([10, 20] : List Nat).length : Int) ∧
      (Subset.rand (⟨[10, 20], 2⟩ : Subset Nat) [1]).length ≠ (2 : Int).toNat := by
  decide

/-- C7 (amended): for every Subset whose elements are duplicate-free and
whose size satisfies `0 ≤ size ≤ len(elements) - 1`, every outcome of
rand is a sequence of exactly `size` distinct elements, each drawn from
`elements`. -/
theorem c7_subset_rand {α : Type} [Inhabited α] (S : Subset α) (shuffled : List Nat)
    (hperm : shuffled.Perm (List.range' 1 (S.elements.length - 1)))
    (hnodup : S.elements.Nodup) (h0 : 0 ≤ S.size)
    (hsz : S.size.toNat ≤ S.elements.length - 1) :
    (S.rand shuffled).length = S.size.toNat ∧ (S.rand shuffled).Nodup ∧
      ∀ x ∈ S.rand shuffled, x ∈ S.elements := by
  have hslen : shuffled.length = S.elements.length - 1 := by
    rw [hperm.length_eq, List.length_range']
  have hsel : S.randIndices shuffled = shuffled.take S.size.toNat := by
    rw [Subset.randIndices, pySliceTo, if_pos h0]
  have hmem : ∀ i ∈ shuffled.take S.size.toNat, 1 ≤ i ∧ i < S.elements.length := by
    intro i hi
    have h1 : i ∈ shuffled := List.take_subset _ _ hi
    have h2 : i ∈ List.range' 1 (S.elements.length - 1) := hperm.subset h1
    rw [List.mem_range'_1] at h2
    omega
  refine ⟨?_, ?_, ?_⟩
  · rw [Subset.rand, hsel, List.length_map, List.length_take]
    omega
  · rw [Subset.rand, hsel]
    have htn : (shuffled.take S.size.toNat).Nodup :=
      List.Nodup.sublist (List.take_sublist _ _)
        (hperm.nodup_iff.mpr (List.nodup_range' 1 (S.elements.length - 1)))
    refine List.Nodup.map_on ?_ htn
    intro i hi j hj hij
    obtain ⟨_, hilt⟩ := hmem i hi
    obtain ⟨_, hjlt⟩ := hmem j hj
    rw [List.getD_eq_getElem _ _ hilt, List.getD_eq_getElem _ _ hjlt] at hij
    exact (hnodup.getElem_inj_iff).mp hij
  · rw [Subset.rand, hsel]
    intro x hx
    obtain ⟨i, hi, hix⟩ := List.mem_map.mp hx
    obtain ⟨_, hilt⟩ := hmem i hi
    rw [← hix, List.getD_eq_getElem _ _ hilt]
    exact List.getElem_mem hilt

theorem c7_subset_rand_witness :
    (Subset.rand (⟨[10, 20, 30], 2⟩ : Subset Nat) [2, 1]).length = (2 : Int).toNat ∧
      (Subset.rand (⟨[10, 20, 30], 2⟩ : Subset Nat) [2, 1]).Nodup ∧
      ∀ x ∈ Subset.rand (⟨[10, 20, 30], 2⟩ : Subset Nat) [2, 1],
        x ∈ ([10, 20, 30] : List Nat) :=
  c7_subset_rand ⟨[10, 20, 30], 2⟩ [2, 1] (by decide) (by decide) (by decide) (by decide)

/-- C8: the index selection of `Subset.rand` draws from a shuffle of
`range(1, len(elements))`, so index 0 — the first element — can never be
among the selected indices, whatever the shuffle outcome. -/
theorem c8_first_index_excluded {α : Type} (S : Subset α) (shuffled : List Nat)
    (hperm : shuffled.Perm (List.range' 1 (S.elements.length - 1))) :
    0 ∉ S.randIndices shuffled := by
  intro h0
  have h1 : 0 ∈ shuffled := by
    rw [Subset.randIndices, pySliceTo] at h0
    split at h0 <;> exact List.take_subset _ _ h0
  exact absurd (List.mem_range'_1.mp (hperm.subset h1)) (by omega)

theorem c8_first_index_excluded_witness :
    0 ∉ Subset.randIndices (⟨[10, 20], 1⟩ : Subset Nat) [1] :=
  c8_first_index_excluded ⟨[10, 20], 1⟩ [1] (by decide)

/-- C9 counterexample: the invalid parameter combinations named by the
claim — `Real(2, 1)` with `min_value > max_value`, `Binary(0)` with
non-positive `nbits`, `Subset([1, 2], 5)` with out-of-range `size` — all
construct successfully instead of failing. -/
theorem c9_counterexample :
    ((1 : ℚ) < 2 ∧ (Real.make 2 1).isSome = true) ∧
      ((0 : Int) ≤ 0 ∧ (Binary.make 0).isSome = true) ∧
      ((([1, 2] : List Nat).length : Int) < 5 ∧
        (Subset.make ([1, 2] : List Nat) 5).isSome = true) := by
  refine ⟨⟨by norm_num, rfl⟩, ⟨le_rfl, rfl⟩, ⟨by norm_num, rfl⟩⟩

/-- C9 (amended): no construction-time validation exists — every
parameter combination, valid or not, constructs successfully; invalid
parameters surface only later, at rand or encode time, if at all. -/
theorem c9_no_validation (a b c d : ℚ) (cl : Option (Bool × Bool)) (n : Int)
    (el : List Nat) (sz : Int) :
    (Real.make a b).isSome = true ∧ (Real_Normal.make a b c d cl).isSome = true ∧
      (Real_T.make a b c).isSome = true ∧ (Binary.make n).isSome = true ∧
      (Subset.make el sz).isSome = true :=
  ⟨rfl, rfl, rfl, rfl, rfl⟩

/-- C10: a Real_Normal constructed with the default `clamp = None` fails
on every rand call when `spread > 0`, because the noise branch subscripts
the clamp flag without checking it for None; only `spread ≤ 0` avoids the
failing branch, in which case rand returns `default_value`. -/
theorem c10_clamp_none_failure (T : Real_Normal) (draw : ℚ) (h : T.clamp = none) :
    (0 < T.spread → T.rand draw = none) ∧
      (T.spread ≤ 0 → T.rand draw = some T.default_value) := by
  constructor
  · intro hs
    simp only [Real_Normal.rand, if_pos hs, h]
  · intro hs
    simp only [Real_Normal.rand, if_neg (not_lt.mpr hs)]

theorem c10_clamp_none_failure_witness :
    Real_Normal.rand ⟨0, 1, 7, 5, none⟩ 0 = none :=
  (c10_clamp_none_failure ⟨0, 1, 7, 5, none⟩ 0 rfl).1 (by norm_num)

end Platypus
